import Mathlib

/-!
Verification of `trainers/utils/igp_utils.py` (NFGP).

A shallow embedding of the point-sampling and deformation-weight utilities.
Scalars are modelled as rationals (exact arithmetic; rational division by
zero yields 0, mirroring that float division by a zero norm is degenerate).
External collaborators (the implicit-field evaluator, the autodiff
gradient/Jacobian provider, the square-root primitive inside `Tensor.norm`,
the random-number streams, and the deformation network with its inverse
solver) are parameters, as the code treats them as black boxes.
-/

namespace IGP

/-- A point / vector of dimension `d` (one row of a `(…, d)` tensor). -/
abbrev Vec (d : ℕ) := Fin d → ℚ

/-- A per-point `d × d` matrix (one slice of a `(…, d, d)` tensor). -/
abbrev Mat (d : ℕ) := Matrix (Fin d) (Fin d) ℚ

/-- Squared Euclidean norm; `Tensor.norm v = sq (norm2 v)` for the external
square-root primitive `sq`. -/
def norm2 {d : ℕ} (v : Vec d) : ℚ := ∑ i, v i ^ 2

/-- `outter(v1, v2)` from the source: per-point outer product `v1 · v2ᵀ`
(the batch dimension is handled by mapping over point lists). -/
def outter {d : ℕ} (v1 v2 : Vec d) : Mat d :=
  Matrix.of fun i j => v1 i * v2 j

/-- `_addr_(mat, vec1, vec2, alpha, beta)` from the source, per point:
`alpha * outter(vec1, vec2) + beta * mat`. -/
def addr {d : ℕ} (mat : Mat d) (vec1 vec2 : Vec d) (alpha beta : ℚ) : Mat d :=
  alpha • outter vec1 vec2 + beta • mat

/-- `torch.clamp(v, min := lo, max := hi)` on one coordinate. -/
def clamp (v lo hi : ℚ) : ℚ := min (max v lo) hi

/-- The external collaborators bound to one scalar field: the field itself
(`net`), its autodiff gradient field (`gnet`, the external differentiation
provider of `diff_ops.gradient`), and the square-root primitive used by
`Tensor.norm` (`sq`). -/
structure FieldOps (d : ℕ) where
  net : Vec d → ℚ
  gnet : Vec d → Vec d
  sq : ℚ → ℚ

/-- Per-point normal of `tangential_projection_matrix`:
`grad / grad.norm(dim=-1, keepdim=True)` — note: the denominator carries no
additive floor in the source. -/
def tpmNormal {d : ℕ} (sq : ℚ → ℚ) (g : Vec d) : Vec d :=
  fun i => g i / sq (norm2 g)

/-- `tangential_projection_matrix` per point: from the gradient `g` of the
field at the point, the unit(-intended) normal and the projector
`_addr_(I, n, n, alpha = -1, beta = 1) = I - n nᵀ`. -/
def tpmPoint {d : ℕ} (sq : ℚ → ℚ) (g : Vec d) : Vec d × Mat d :=
  (tpmNormal sq g, addr 1 (tpmNormal sq g) (tpmNormal sq g) (-1) 1)

/-- `tangential_projection_matrix` over a batch of per-point gradients. -/
def tangential_projection_matrix {d : ℕ} (sq : ℚ → ℚ) (grads : List (Vec d)) :
    List (Vec d) × List (Mat d) :=
  (grads.map fun g => (tpmPoint sq g).1, grads.map fun g => (tpmPoint sq g).2)

/-- One inner iteration of `get_surf_pcl_defaut` applied to one point
(lines 95–101, after the noise injection): evaluate the field, take the
autodiff gradient, normalize with the `+ eps` floor, move by
`-normalized_gradient * field`, clamp coordinates to `±bound`. -/
def projStepPoint {d : ℕ} (F : FieldOps d) (eps bound : ℚ) (p : Vec d) : Vec d :=
  fun j =>
    clamp (p j - F.gnet p j / (F.sq (norm2 (F.gnet p)) + eps) * F.net p) (-bound) bound

/-- The optional corrective step of `get_surf_pcl_with_rejection`
(lines 74–77), per point: gradient normalized by the raw norm (no `eps`
floor), then `x - g * y`; no clamping. -/
def gstepPoint {d : ℕ} (F : FieldOps d) (p : Vec d) : Vec d :=
  fun j => p j - F.gnet p j / F.sq (norm2 (F.gnet p)) * F.net p

/-- `torch.allclose(y, torch.zeros_like(y))`: every entry within the
absolute tolerance of zero. -/
def allclose0 (atol : ℚ) (ys : List ℚ) : Bool :=
  ys.all fun y => decide (|y| ≤ atol)

/-- The inner `for i in range(steps)` loop of `get_surf_pcl_defaut`
(lines 91–101). First argument is the remaining fuel (initially `steps`),
second the running step index `i` (used for the annealed noise scale and
the noise stream); returns the final batch together with the number of
iterations entered. On the `allclose` early break the noise-perturbed
batch of the current iteration is returned, as in the source. -/
def projLoop {d : ℕ} (F : FieldOps d) (noise : ℕ → List (Vec d))
    (noise_sigma sigma_decay eps bound atol : ℚ) :
    ℕ → ℕ → List (Vec d) → List (Vec d) × ℕ
  | 0, i, x => (x, i)
  | k + 1, i, x =>
    let x1 := List.zipWith
      (fun p nz => fun j => p j + noise_sigma * sigma_decay ^ i * nz j) x (noise i)
    if allclose0 atol (x1.map F.net) then (x1, i + 1)
    else projLoop F noise noise_sigma sigma_decay eps bound atol k (i + 1)
      (x1.map (projStepPoint F eps bound))

/-- The outer `while out_cnt < npoints and already_repeated < max_repeat`
loop of `get_surf_pcl_defaut` (lines 88–115). Fuel is the remaining repeat
budget; `a` is the attempt index (`already_repeated`), doubling as the index
into the fresh-batch and noise streams; `cnt` is `out_cnt`; `out` is the
accumulator (`None` before the first filtered attempt, as in the source).
Returns the accumulator and the number of attempts executed. In the
filtered branch freshly accepted points are concatenated in front
(`torch.cat([x, out])`); in the unfiltered branch the raw batch replaces
the accumulator and `out_cnt` is set to `npoints`. -/
def defautLoop {d : ℕ} (F : FieldOps d) (initPts : ℕ → List (Vec d))
    (noiseAt : ℕ → ℕ → List (Vec d)) (npoints steps : ℕ)
    (eps noise_sigma sigma_decay bound atol : ℚ) (filtered : Bool) :
    ℕ → ℕ → ℕ → Option (List (Vec d)) → Option (List (Vec d)) × ℕ
  | 0, a, _, out => (out, a)
  | fuel + 1, a, cnt, out =>
    if npoints ≤ cnt then (out, a)
    else
      let x := (projLoop F (noiseAt a) noise_sigma sigma_decay eps bound atol
        steps 0 (initPts a)).1
      if filtered then
        let xf := x.filter fun p => decide (|F.net p| < eps)
        defautLoop F initPts noiseAt npoints steps eps noise_sigma sigma_decay
          bound atol filtered fuel (a + 1) (cnt + xf.length)
          (some (xf ++ out.getD []))
      else
        defautLoop F initPts noiseAt npoints steps eps noise_sigma sigma_decay
          bound atol filtered fuel (a + 1) npoints (some x)

/-- `get_surf_pcl_defaut`, instrumented with the number of attempts
executed. The final `out[:npoints]` slice is a `take`; slicing the
never-assigned accumulator (`None`, reachable only when the loop body never
ran) is a Python `TypeError`, modelled by the `none` result. -/
def get_surf_pcl_defautRun {d : ℕ} (F : FieldOps d) (initPts : ℕ → List (Vec d))
    (noiseAt : ℕ → ℕ → List (Vec d)) (npoints steps max_repeat : ℕ)
    (eps noise_sigma sigma_decay bound atol : ℚ) (filtered : Bool) :
    Option (List (Vec d)) × ℕ :=
  let r := defautLoop F initPts noiseAt npoints steps eps noise_sigma sigma_decay
    bound atol filtered max_repeat 0 0 none
  (r.1.map fun l => l.take npoints, r.2)

/-- `get_surf_pcl_defaut` (lines 81–117): the value the caller receives. -/
def get_surf_pcl_defaut {d : ℕ} (F : FieldOps d) (initPts : ℕ → List (Vec d))
    (noiseAt : ℕ → ℕ → List (Vec d)) (npoints steps max_repeat : ℕ)
    (eps noise_sigma sigma_decay bound atol : ℚ) (filtered : Bool) :
    Option (List (Vec d)) :=
  (get_surf_pcl_defautRun F initPts noiseAt npoints steps max_repeat
    eps noise_sigma sigma_decay bound atol filtered).1

/-- The accumulation `while out_cnt < npoints` loop of
`get_surf_pcl_with_rejection` (lines 57–67). The source loop has no
iteration ceiling; the embedding makes the potential divergence explicit
through a fuel argument: `none` means the loop is still running after
`fuel` iterations, for every `fuel`. `it` indexes the candidate-draw
stream; `cnt` is `out_cnt`; `acc` collects accepted candidates in draw
order (`out.append` then `torch.cat`). -/
def rejAccumLoop {d : ℕ} (F : FieldOps d) (draw : ℕ → List (Vec d))
    (thr : ℚ) (npoints : ℕ) :
    ℕ → ℕ → ℕ → List (Vec d) → Option (List (Vec d))
  | 0, _, _, _ => none
  | fuel + 1, it, cnt, acc =>
    if npoints ≤ cnt then some acc
    else
      let xeq := (draw it).filter fun p => decide (|F.net p| < thr)
      if xeq.length < 1 then rejAccumLoop F draw thr npoints fuel (it + 1) cnt acc
      else rejAccumLoop F draw thr npoints fuel (it + 1) (cnt + xeq.length) (acc ++ xeq)

/-- `get_surf_pcl_with_rejection` (lines 53–78): accumulate candidates with
`|field| < thr`, truncate to `npoints`, then optionally apply the single
corrective gradient step (`gstep`). -/
def get_surf_pcl_with_rejection {d : ℕ} (F : FieldOps d) (draw : ℕ → List (Vec d))
    (npoints : ℕ) (thr : ℚ) (gstep : Bool) (fuel : ℕ) : Option (List (Vec d)) :=
  (rejAccumLoop F draw thr npoints fuel 0 0 []).map fun out =>
    let x := out.take npoints
    if gstep then x.map (gstepPoint F) else x

/-- `get_surf_pcl` (lines 38–50): strategy dispatch. The rejection call
fixes `gstep := True`; the default call forwards all tuning constants. -/
def get_surf_pcl {d : ℕ} (F : FieldOps d) (initPts : ℕ → List (Vec d))
    (noiseAt : ℕ → ℕ → List (Vec d)) (draw : ℕ → List (Vec d))
    (npoints steps max_repeat : ℕ)
    (eps noise_sigma sigma_decay bound atol thr : ℚ) (filtered : Bool)
    (use_rejection : Bool) (rejFuel : ℕ) : Option (List (Vec d)) :=
  if use_rejection then
    get_surf_pcl_with_rejection F draw npoints thr true rejFuel
  else
    get_surf_pcl_defaut F initPts noiseAt npoints steps max_repeat
      eps noise_sigma sigma_decay bound atol filtered

/-- The surface-restricted effective Jacobians of `compute_deform_weight`
(lines 151–162), per point: `J' = bmm(J, xn_proj)` then
`_addr_(J', yn, xn)` with the default `alpha = beta = 1`, where `yn` is the
normal of `y_net` at the image point and `(xn, xn_proj)` come from `x_net`
at the source point. `gY`/`gX` are the autodiff gradient fields of the two
scalar fields. -/
def surfaceJs {d : ℕ} (sq : ℚ → ℚ) (gY gX : Vec d → Vec d)
    (deform : Vec d → Vec d) (x : List (Vec d)) (Js : List (Mat d)) :
    List (Mat d) :=
  List.zipWith
    (fun p Jp =>
      addr (Jp * (tpmPoint sq (gX p)).2)
        (tpmPoint sq (gY (deform p))).1 (tpmPoint sq (gX p)).1 1 1)
    x Js

/-- Lines 164–167 of `compute_deform_weight`: `|det J|`, squared when
`dim == 3`, then inverted. -/
def rawWeights (dim : ℕ) {d : ℕ} (Js : List (Mat d)) : List ℚ :=
  let w := Js.map fun J => |J.det|
  let w := if dim = 3 then w.map fun t => t ^ 2 else w
  w.map fun t => 1 / t

/-- Lines 169–170: rescale so the vector sums to `npoints`. -/
def normalizeW (npoints : ℕ) (w : List ℚ) : List ℚ :=
  w.map fun t => t / w.sum * (npoints : ℚ)

/-- The weight pipeline of `compute_deform_weight` after the effective
Jacobians are known (lines 164–170). -/
def weightsFromJ (dim npoints : ℕ) {d : ℕ} (normalize : Bool) (Js : List (Mat d)) :
    List ℚ :=
  if normalize then normalizeW npoints (rawWeights dim Js)
  else rawWeights dim Js

/-- `compute_deform_weight` (lines 131–174). `jacO` is the external
Jacobian provider applied to the deformation at the batch (value and
status, line 148); a non-zero status is the `assert status == 0` failure.
`y_net`/`x_net` are the two scalar fields as the caller handed them over:
they may be Python `None`, and they are called (only) in the surface
branch, where a `None` raises. `gY`/`gX` are their autodiff gradient
fields, `sq` the square-root primitive. `detach` only severs the autodiff
graph and has no value-level effect. -/
def compute_deform_weight (dim : ℕ) {d : ℕ} (x : List (Vec d))
    (deform : Vec d → Vec d) (jacO : List (Vec d) → List (Mat d) × ℤ)
    (y_net x_net : Option (Vec d → ℚ)) (gY gX : Vec d → Vec d) (sq : ℚ → ℚ)
    (surface detach normalize : Bool) : Except String (List ℚ) :=
  if (jacO x).2 ≠ 0 then Except.error "AssertionError: status == 0"
  else if surface then
    match y_net, x_net with
    | some _, some _ =>
      Except.ok (weightsFromJ dim x.length normalize
        (surfaceJs sq gY gX deform x (jacO x).1))
    | _, _ => Except.error "TypeError: NoneType object is not callable"
  else Except.ok (weightsFromJ dim x.length normalize (jacO x).1)

/-- The deformation network: forward map (`deform(x, None)`) and the
external inverse solver (`deform.invert(y, iters=30)`). -/
structure Deform (d : ℕ) where
  forward : Vec d → Vec d
  invert : List (Vec d) → List (Vec d)

/-- The external collaborators of `sample_points_for_loss` that do not
depend on which optional argument was supplied: the square-root primitive,
the autodiff gradient fields of `gtr` and `net`, the Jacobian provider for
the deformation, the random streams of the two samplers, and the uniform
volumetric draw of line 207. -/
structure SampleOracles (d : ℕ) where
  sq : ℚ → ℚ
  gradGtr : Vec d → Vec d
  gradNet : Vec d → Vec d
  jacDeform : List (Vec d) → List (Mat d) × ℤ
  initPts : ℕ → List (Vec d)
  noiseAt : ℕ → ℕ → List (Vec d)
  rejDraw : ℕ → List (Vec d)
  randUnif : List (Vec d)

/-- `sample_points_for_loss` (lines 177–225). The four configuration paths
with their literal call arguments: surface calls use
`steps=5, noise_sigma=1e-3, filtered=False, sigma_decay=1` over the
defaults `eps=1e-4, max_repeat=10, bound=1-1e-4, thr=0.05`;
`torch.allclose` uses its default `atol=1e-8`. `gtr` and `net` are the
optional field arguments (`None` ↦ `none`); the asserts of the source are
`Except.error` values. The result is the point batch paired with the
weights when `return_weight` is set. -/
def sample_points_for_loss (d npoints : ℕ) (use_surf_points : Bool)
    (gtr net : Option (Vec d → ℚ)) (deform : Option (Deform d))
    (invert_sampling return_weight detach_weight use_rejection : Bool)
    (O : SampleOracles d) (rejFuel : ℕ) :
    Except String (List (Vec d) × Option (List ℚ)) :=
  if use_surf_points then
    if invert_sampling then
      match deform, gtr with
      | none, _ => Except.error "AssertionError: deform is not None"
      | some _, none => Except.error "AssertionError: gtr is not None"
      | some df, some g =>
        match get_surf_pcl ⟨g, O.gradGtr, O.sq⟩ O.initPts O.noiseAt O.rejDraw
            npoints 5 10 (1/10000) (1/1000) 1 (1 - 1/10000) (1/100000000)
            (1/20) false use_rejection rejFuel with
        | none => Except.error "surface sampler did not return"
        | some y =>
          (compute_deform_weight d (df.invert y) df.forward O.jacDeform
              (some g) net O.gradGtr O.gradNet O.sq true detach_weight true).map
            fun w => (df.invert y, if return_weight then some w else none)
    else
      match net with
      | none => Except.error "AssertionError: net is not None"
      | some nf =>
        match get_surf_pcl ⟨nf, O.gradNet, O.sq⟩ O.initPts O.noiseAt O.rejDraw
            npoints 5 10 (1/10000) (1/1000) 1 (1 - 1/10000) (1/100000000)
            (1/20) false use_rejection rejFuel with
        | none => Except.error "surface sampler did not return"
        | some x =>
          Except.ok (x, if return_weight then some (List.replicate npoints 1) else none)
  else
    if invert_sampling then
      match deform with
      | none => Except.error "AssertionError: deform is not None"
      | some df =>
        (compute_deform_weight d (df.invert O.randUnif) df.forward O.jacDeform
            gtr net O.gradGtr O.gradNet O.sq false detach_weight true).map
          fun w => (df.invert O.randUnif, if return_weight then some w else none)
    else
      Except.ok (O.randUnif,
        if return_weight then some (List.replicate npoints 1) else none)

/-- A store of live tensors, for the aliasing/mutation claim: tensor ids
map to their values and `requires_grad` flags; `next` is the next fresh
id. -/
structure TensorStore (d : ℕ) where
  vals : ℕ → List (Vec d)
  reqGrad : ℕ → Bool
  next : ℕ

/-- `x.clone().detach()`: allocate a fresh tensor holding the same values
with `requires_grad = False; the argument tensor is untouched. -/
def cloneDetach {d : ℕ} (σ : TensorStore d) (t : ℕ) : TensorStore d × ℕ :=
  (⟨fun i => if i = σ.next then σ.vals t else σ.vals i,
    fun i => if i = σ.next then false else σ.reqGrad i,
    σ.next + 1⟩, σ.next)

/-- `t.requires_grad = b`: in-place flag update on tensor `t`. -/
def setRequiresGrad {d : ℕ} (σ : TensorStore d) (t : ℕ) (b : Bool) : TensorStore d :=
  ⟨σ.vals, fun i => if i = t then b else σ.reqGrad i, σ.next⟩

/-- Lines 145–146 of `compute_deform_weight`:
`x = x.clone().detach(); x.requires_grad = True`. Returns the store after
both statements and the id the local name `x` is rebound to. The rest of
the function only reads that local tensor. -/
def cdwPrologue {d : ℕ} (σ : TensorStore d) (t : ℕ) : TensorStore d × ℕ :=
  let r := cloneDetach σ t
  (setRequiresGrad r.1 r.2 true, r.2)

/-! Concrete fixtures, used by the closed witness and counterexample
statements. The square-root oracle is instantiated with the identity
function only at arguments where that is the true square root (`0` and
`1`). -/

/-- The zero point in one dimension. -/
def p01 : Vec 1 := fun _ => 0

/-- The constantly-zero field in one dimension, with its (zero) autodiff
gradient field. -/
def F0 : FieldOps 1 := ⟨fun _ => 0, fun _ => fun _ => 0, fun q => q⟩

/-- The constantly-one field in one dimension: no point is ever within
`eps` (or `thr`) of its zero level-set. -/
def F1 : FieldOps 1 := ⟨fun _ => 1, fun _ => fun _ => 0, fun q => q⟩

/-- A field with value 1 and gradient `(1)` everywhere, in one dimension
(gradient norm 1, so the identity is the correct square root). -/
def F2 : FieldOps 1 := ⟨fun _ => 1, fun _ => fun _ => 1, fun q => q⟩

/-- First standard basis vector of `ℚ^3`. -/
def e0 : Vec 3 := fun i => if i = 0 then 1 else 0

/-- A singleton batch at the origin, `d = 1`. -/
def xz1 : List (Vec 1) := [p01]

/-- A singleton batch at the origin, `d = 3`. -/
def xz3 : List (Vec 3) := [fun _ => 0]

/-- A Jacobian provider returning the singular zero matrix (status 0). -/
def jacZero : List (Vec 1) → List (Mat 1) × ℤ := fun _ => ([0], 0)

/-- A Jacobian provider returning `2` (times the identity), `d = 1`. -/
def jacTwo : List (Vec 1) → List (Mat 1) × ℤ :=
  fun _ => ([Matrix.of fun _ _ => 2], 0)

/-- The correct Jacobian provider for the identity deformation, `d = 3`:
identity matrix at every point, status 0. -/
def jacId3 : List (Vec 3) → List (Mat 3) × ℤ := fun xs => (xs.map fun _ => 1, 0)

/-- The identity deformation with the identity inverse solver, `d = 1`. -/
def idDeform1 : Deform 1 := ⟨fun p => p, fun l => l⟩

/-- Concrete orchestrator collaborators, `d = 1`: the Jacobian provider is
the correct one for `idDeform1` (identity matrices, status 0), and the
uniform volumetric draw yields the single point `p01`. -/
def Oc1 : SampleOracles 1 :=
  ⟨fun q => q, fun _ => fun _ => 0, fun _ => fun _ => 0,
   fun xs => (xs.map fun _ => 1, 0),
   fun _ => [], fun _ _ => [], fun _ => [], [p01]⟩

/-- A one-tensor store: id 0 is live, holds `[p01]`, requires grad. -/
def σ0 : TensorStore 1 := ⟨fun _ => [p01], fun _ => true, 1⟩

/-! ## Theorems -/

/-- C1 (counterexample). At a point whose field gradient is zero, the
normal returned by `tangential_projection_matrix` is the zero vector, not
a unit vector: the normalization denominator is the raw norm
`sq (norm2 g) = 0`, with no additive floor. (The identity is the correct
square-root oracle at the argument `0`.) -/
theorem claim1_counterexample :
    tpmNormal (d := 3) (fun q => q) (fun _ => 0) = (fun _ => 0) ∧
    norm2 (tpmNormal (d := 3) (fun q => q) (fun _ => 0)) ≠ 1 := by
  constructor
  · funext i
    simp [tpmNormal, norm2]
  · norm_num [tpmNormal, norm2, Fin.sum_univ_three]

/-- C1 (amended). The normal of `tangential_projection_matrix` is
normalized by the raw gradient norm with no additive floor; whenever that
norm is nonzero (`sq` being the genuine square root of the squared norm),
the returned normal has unit norm. At zero-gradient points the denominator
is zero and the guarantee fails (see the counterexample). -/
theorem claim1 {d : ℕ} (sq : ℚ → ℚ) (g : Vec d)
    (hs : sq (norm2 g) * sq (norm2 g) = norm2 g) (h0 : sq (norm2 g) ≠ 0) :
    norm2 (tpmNormal sq g) = 1 := by
  have hng : norm2 g ≠ 0 := by
    intro h
    have h2 : sq (norm2 g) * sq (norm2 g) = 0 := by rw [hs, h]
    exact h0 (mul_self_eq_zero.mp h2)
  have hsq : sq (norm2 g) ^ 2 = norm2 g := by rw [pow_two, hs]
  have hfrac : norm2 (tpmNormal sq g) = norm2 g / sq (norm2 g) ^ 2 := by
    unfold tpmNormal norm2
    simp only [div_pow, ← Finset.sum_div]
  rw [hfrac, hsq]
  exact div_self hng

/-- C1 (witness for the amended theorem): the gradient `e0` has norm 1 and
normalizes to a unit normal. -/
theorem claim1_witness :
    (fun q : ℚ => q) (norm2 e0) * (fun q : ℚ => q) (norm2 e0) = norm2 e0 ∧
    norm2 (tpmNormal (fun q : ℚ => q) e0) = 1 := by
  have h1 : norm2 e0 = 1 := by norm_num [norm2, e0, Fin.sum_univ_three]
  refine ⟨by rw [h1]; norm_num, claim1 (fun q => q) e0 ?_ ?_⟩ <;> rw [h1] <;> norm_num

/-- C3 (counterexample). The corrective `gstep` of the rejection sampler
is not the eps-floored update of Strategy A: at a point with field value 1
and gradient norm 1, `gstep` moves by the full `-g * y` while Strategy A's
step (here with its default `eps = 1e-4` and a bound large enough that
clamping is inactive) scales by `1/(1 + eps)`. -/
theorem claim3_counterexample :
    gstepPoint F2 p01 ≠ projStepPoint F2 (1/10000) 2 p01 := by
  intro h
  have h0 := congrFun h 0
  simp [gstepPoint, projStepPoint, F2, p01, norm2, clamp] at h0
  norm_num at h0

/-- C3 (amended). The corrective `gstep` computes Strategy A's
gradient-projection update with noise annealing, coordinate clamping AND
the `eps` floor removed: whenever clamping would be inactive, it equals
the Strategy A per-point step at `eps = 0`. -/
theorem claim3 {d : ℕ} (F : FieldOps d) (bound : ℚ) (p : Vec d)
    (hcl : ∀ j, |p j - F.gnet p j / F.sq (norm2 (F.gnet p)) * F.net p| ≤ bound) :
    gstepPoint F p = projStepPoint F 0 bound p := by
  funext j
  have h := abs_le.mp (hcl j)
  simp only [gstepPoint, projStepPoint, clamp, add_zero]
  rw [max_eq_left h.1, min_eq_left h.2]

/-- C3 (witness): at the origin under the zero field the two updates agree
(and stay inside the bound). -/
theorem claim3_witness :
    (∀ j, |p01 j - F0.gnet p01 j / F0.sq (norm2 (F0.gnet p01)) * F0.net p01| ≤ 1) ∧
    gstepPoint F0 p01 = projStepPoint F0 0 1 p01 := by
  have hcl : ∀ j, |p01 j - F0.gnet p01 j / F0.sq (norm2 (F0.gnet p01)) * F0.net p01| ≤ 1 := by
    intro j
    norm_num [p01, F0, norm2]
  exact ⟨hcl, claim3 F0 1 p01 hcl⟩

/-- C9. For a unit vector `n`, the projector built by the rank-1 update
helper, `_addr_(I, n, n, alpha = -1, beta = 1) = I - n nᵀ`, annihilates
`n` and is idempotent. -/
theorem claim9 {d : ℕ} (n : Vec d) (hn : norm2 n = 1) :
    Matrix.mulVec (addr 1 n n (-1) 1) n = 0 ∧
    addr 1 n n (-1) 1 * addr 1 n n (-1) 1 = addr 1 n n (-1) 1 := by
  have hdot : (∑ j, n j * n j) = 1 := by
    simpa [norm2, pow_two] using hn
  have hP : addr 1 n n (-1) 1 = 1 - outter n n := by
    unfold addr
    ext i j
    simp [Matrix.add_apply, Matrix.smul_apply, Matrix.sub_apply]
    ring
  have hNvec : (outter n n).mulVec n = n := by
    funext i
    calc (outter n n).mulVec n i = ∑ j, n i * n j * n j := by
          simp [Matrix.mulVec, Matrix.dotProduct, outter]
      _ = n i * ∑ j, n j * n j := by
          rw [Finset.mul_sum]
          exact Finset.sum_congr rfl fun j _ => by ring
      _ = n i := by rw [hdot, mul_one]
  have hNN : outter n n * outter n n = outter n n := by
    ext i k
    calc (outter n n * outter n n) i k = ∑ j, n i * n j * (n j * n k) := by
          simp [Matrix.mul_apply, outter]
      _ = n i * n k * ∑ j, n j * n j := by
          rw [Finset.mul_sum]
          exact Finset.sum_congr rfl fun j _ => by ring
      _ = (outter n n) i k := by rw [hdot, mul_one]; simp [outter]
  constructor
  · rw [hP, Matrix.sub_mulVec, Matrix.one_mulVec, hNvec, sub_self]
  · rw [hP]
    calc (1 - outter n n) * (1 - outter n n)
        = (1 - outter n n) - (outter n n - outter n n * outter n n) := by
          rw [sub_mul, one_mul, mul_sub, mul_one]
      _ = 1 - outter n n := by rw [hNN, sub_self, sub_zero]

/-- C9 (witness): the basis vector `e0` is a unit vector; its projector
annihilates it and is idempotent. -/
theorem claim9_witness :
    norm2 e0 = 1 ∧
    Matrix.mulVec (addr 1 e0 e0 (-1) 1) e0 = 0 ∧
    addr 1 e0 e0 (-1) 1 * addr 1 e0 e0 (-1) 1 = addr 1 e0 e0 (-1) 1 := by
  have h1 : norm2 e0 = 1 := by norm_num [norm2, e0, Fin.sum_univ_three]
  exact ⟨h1, claim9 e0 h1⟩

/-- C10. The prologue of `compute_deform_weight`
(`x = x.clone().detach(); x.requires_grad = True`) never mutates the
caller's tensor: for any live tensor id, its values and `requires_grad`
flag are unchanged afterwards; the local name is rebound to a fresh id
holding the same values with gradient tracking enabled. -/
theorem claim10 {d : ℕ} (σ : TensorStore d) (t : ℕ) (ht : t < σ.next) :
    (cdwPrologue σ t).1.vals t = σ.vals t ∧
    (cdwPrologue σ t).1.reqGrad t = σ.reqGrad t ∧
    (cdwPrologue σ t).2 ≠ t ∧
    (cdwPrologue σ t).1.vals (cdwPrologue σ t).2 = σ.vals t ∧
    (cdwPrologue σ t).1.reqGrad (cdwPrologue σ t).2 = true := by
  have hne : t ≠ σ.next := Nat.ne_of_lt ht
  unfold cdwPrologue cloneDetach setRequiresGrad
  simp [hne, Ne.symm hne]

/-- C10 (witness): concrete store with one live tensor. -/
theorem claim10_witness :
    (0 < σ0.next) ∧
    (cdwPrologue σ0 0).1.vals 0 = σ0.vals 0 ∧
    (cdwPrologue σ0 0).1.reqGrad 0 = σ0.reqGrad 0 ∧
    (cdwPrologue σ0 0).2 ≠ 0 ∧
    (cdwPrologue σ0 0).1.vals (cdwPrologue σ0 0).2 = σ0.vals 0 ∧
    (cdwPrologue σ0 0).1.reqGrad (cdwPrologue σ0 0).2 = true :=
  ⟨by norm_num [σ0], claim10 σ0 0 (by norm_num [σ0])⟩

/-- Closed form of the pre-normalization weight pipeline. -/
theorem rawWeights_eq (dim : ℕ) {d : ℕ} (Js : List (Mat d)) :
    rawWeights dim Js =
      Js.map fun J => 1 / (if dim = 3 then |J.det| ^ 2 else |J.det|) := by
  unfold rawWeights
  by_cases h : dim = 3 <;> simp [h, List.map_map, Function.comp]

/-- C5. With normalization off, the per-point weight is `1/|det|` of the
possibly surface-restricted Jacobian, squared for `dim = 3`: with the
surface flag off it is the map over the provider's Jacobians `Js`; with
the surface flag on (both field callables present, as the source requires
there) it is the same map over the surface-restricted `surfaceJs`; and the
correct Jacobian provider for the identity deformation (identity matrices,
status 0) yields weight 1 at every point. -/
theorem claim5 (dim : ℕ) {d : ℕ} (x : List (Vec d)) (deform : Vec d → Vec d)
    (jacO : List (Vec d) → List (Mat d) × ℤ) (yn xn : Option (Vec d → ℚ))
    (gY gX : Vec d → Vec d) (sq : ℚ → ℚ) (detach : Bool) (Js : List (Mat d))
    (hjac : jacO x = (Js, 0)) :
    compute_deform_weight dim x deform jacO yn xn gY gX sq false detach false =
      Except.ok (Js.map fun J => 1 / (if dim = 3 then |J.det| ^ 2 else |J.det|)) ∧
    (∀ yf xf, yn = some yf → xn = some xf →
      compute_deform_weight dim x deform jacO yn xn gY gX sq true detach false =
        Except.ok ((surfaceJs sq gY gX deform x Js).map fun J =>
          1 / (if dim = 3 then |J.det| ^ 2 else |J.det|))) ∧
    (Js = List.replicate x.length 1 →
      compute_deform_weight dim x deform jacO yn xn gY gX sq false detach false =
        Except.ok (List.replicate x.length 1)) := by
  have hmain : compute_deform_weight dim x deform jacO yn xn gY gX sq false detach false =
      Except.ok (Js.map fun J => 1 / (if dim = 3 then |J.det| ^ 2 else |J.det|)) := by
    unfold compute_deform_weight weightsFromJ
    rw [hjac]
    simp [rawWeights_eq]
  refine ⟨hmain, fun yf xf hyf hxf => ?_, fun hrep => ?_⟩
  · subst hyf hxf
    unfold compute_deform_weight weightsFromJ
    rw [hjac]
    simp [rawWeights_eq]
  · rw [hmain, hrep, List.map_replicate]
    by_cases h : dim = 3 <;> simp [h, Matrix.det_one]

/-- C5 (witness): identity Jacobians on a singleton batch in dimension 3.
The non-surface weight is the all-ones vector; the surface-restricted
weight is the same `1/|det|²` map applied to the restricted Jacobians. -/
theorem claim5_witness :
    jacId3 xz3 = (List.replicate xz3.length 1, 0) ∧
    compute_deform_weight 3 xz3 (fun p => p) jacId3 (some fun _ => 0)
        (some fun _ => 0) (fun _ => fun _ => 0) (fun _ => fun _ => 0)
        (fun q => q) true false false =
      Except.ok ((surfaceJs (fun q => q) (fun _ => fun _ => 0)
          (fun _ => fun _ => 0) (fun p => p) xz3
          (List.replicate xz3.length 1)).map fun J =>
        1 / (if 3 = 3 then |J.det| ^ 2 else |J.det|)) ∧
    compute_deform_weight 3 xz3 (fun p => p) jacId3 (some fun _ => 0)
        (some fun _ => 0) (fun _ => fun _ => 0) (fun _ => fun _ => 0)
        (fun q => q) false false false =
      Except.ok (List.replicate xz3.length 1) :=
  ⟨rfl,
   (claim5 3 xz3 (fun p => p) jacId3 (some fun _ => 0) (some fun _ => 0)
      (fun _ => fun _ => 0) (fun _ => fun _ => 0) (fun q => q) false
      (List.replicate xz3.length 1) rfl).2.1 _ _ rfl rfl,
   (claim5 3 xz3 (fun p => p) jacId3 (some fun _ => 0) (some fun _ => 0)
      (fun _ => fun _ => 0) (fun _ => fun _ => 0) (fun q => q) false
      (List.replicate xz3.length 1) rfl).2.2 rfl⟩

/-- Summing a list mapped through `t ↦ t / s * c`. -/
theorem sum_map_div_mul (w : List ℚ) (s c : ℚ) :
    (w.map fun t => t / s * c).sum = w.sum / s * c := by
  induction w with
  | nil => simp
  | cons a l ih =>
    simp only [List.map_cons, List.sum_cons, ih]
    ring

/-- The normalization of line 170 makes the weights sum to `npoints`, as
long as the unnormalized sum is nonzero. -/
theorem normalizeW_sum (n : ℕ) (w : List ℚ) (h : w.sum ≠ 0) :
    (normalizeW n w).sum = (n : ℚ) := by
  unfold normalizeW
  rw [sum_map_div_mul, div_self h, one_mul]

/-- Raw weights are strictly positive when every determinant is nonzero. -/
theorem rawWeights_pos (dim : ℕ) {d : ℕ} (Js : List (Mat d))
    (hdet : ∀ J ∈ Js, J.det ≠ 0) : ∀ t ∈ rawWeights dim Js, 0 < t := by
  intro t ht
  rw [rawWeights_eq] at ht
  obtain ⟨J, hJ, rfl⟩ := List.mem_map.mp ht
  have habs : 0 < |J.det| := abs_pos.mpr (hdet J hJ)
  by_cases h : dim = 3
  · simp only [h, if_pos]
    exact one_div_pos.mpr (pow_pos habs 2)
  · rw [if_neg h]
    exact one_div_pos.mpr habs

/-- The normalized weight pipeline sums to `n` whenever every determinant
is nonzero and the Jacobian list has the length of the batch. -/
theorem weightsFromJ_sum (dim n : ℕ) {d : ℕ} (Js : List (Mat d))
    (hlen : Js.length = n) (hdet : ∀ J ∈ Js, J.det ≠ 0) :
    (weightsFromJ dim n true Js).sum = (n : ℚ) := by
  unfold weightsFromJ
  rw [if_pos rfl]
  cases hJs : Js with
  | nil =>
    subst hJs
    simp at hlen
    subst hlen
    simp [rawWeights, normalizeW]
  | cons J rest =>
    subst hJs
    have hne : rawWeights dim (J :: rest) ≠ [] := by
      rw [rawWeights_eq]
      simp
    have hpos : 0 < (rawWeights dim (J :: rest)).sum :=
      List.sum_pos _ (rawWeights_pos dim (J :: rest) hdet) hne
    exact normalizeW_sum n _ (ne_of_gt hpos)

/-- C6 (counterexample). With a singular deformation Jacobian (determinant
zero) the normalized weight vector does not sum to `npoints`: the
unnormalized weight degenerates (here, in exact arithmetic, to 0; in the
floating-point code, to infinity) and the normalizing division is by a
degenerate sum, so the result sums to 0 ≠ 1 = npoints. -/
theorem claim6_counterexample :
    compute_deform_weight 1 xz1 (fun p => p) jacZero none none
        (fun _ => fun _ => 0) (fun _ => fun _ => 0) (fun q => q) false false true =
      Except.ok [0] ∧
    List.sum [(0 : ℚ)] ≠ ((xz1.length : ℕ) : ℚ) := by
  constructor
  · norm_num [compute_deform_weight, xz1, jacZero, weightsFromJ, rawWeights,
      normalizeW, Matrix.det_fin_one]
  · norm_num [xz1]

/-- C6 (amended). With `normalize = True` the returned weight vector sums
to `npoints`, for any deformation map, fields, and surface/detach flags,
PROVIDED the (effective, possibly surface-restricted) Jacobian of every
point has nonzero determinant — at a singular point the guarantee fails
(see the counterexample). When the surface branch is taken both field
callables must be present, since the source invokes them there. -/
theorem claim6 (dim : ℕ) {d : ℕ} (x : List (Vec d)) (deform : Vec d → Vec d)
    (jacO : List (Vec d) → List (Mat d) × ℤ) (yn xn : Option (Vec d → ℚ))
    (gY gX : Vec d → Vec d) (sq : ℚ → ℚ) (surface detach : Bool)
    (Js : List (Mat d)) (hjac : jacO x = (Js, 0))
    (hfield : surface = true → yn.isSome ∧ xn.isSome)
    (hlen : (if surface then surfaceJs sq gY gX deform x Js else Js).length = x.length)
    (hdet : ∀ J ∈ (if surface then surfaceJs sq gY gX deform x Js else Js), J.det ≠ 0) :
    ∃ w, compute_deform_weight dim x deform jacO yn xn gY gX sq surface detach true =
        Except.ok w ∧ w.sum = ((x.length : ℕ) : ℚ) := by
  cases surface with
  | false =>
    refine ⟨weightsFromJ dim x.length true Js, ?_, ?_⟩
    · unfold compute_deform_weight
      rw [hjac]
      simp
    · simp only [if_neg Bool.false_ne_true] at hlen hdet
      exact weightsFromJ_sum dim x.length Js hlen hdet
  | true =>
    obtain ⟨hy, hx⟩ := hfield rfl
    obtain ⟨yf, hyf⟩ := Option.isSome_iff_exists.mp hy
    obtain ⟨xf, hxf⟩ := Option.isSome_iff_exists.mp hx
    subst hyf hxf
    refine ⟨weightsFromJ dim x.length true (surfaceJs sq gY gX deform x Js), ?_, ?_⟩
    · unfold compute_deform_weight
      rw [hjac]
      simp
    · simp only [if_pos] at hlen hdet
      exact weightsFromJ_sum dim x.length _ hlen hdet

/-- C6 (witness): a nonsingular Jacobian (`2`, `d = 1`) on a singleton
batch, non-surface: the normalized weight sums to `npoints = 1`. -/
theorem claim6_witness :
    jacTwo xz1 = ([Matrix.of fun _ _ => 2], 0) ∧
    ∃ w, compute_deform_weight 1 xz1 (fun p => p) jacTwo none none
        (fun _ => fun _ => 0) (fun _ => fun _ => 0) (fun q => q) false false true =
        Except.ok w ∧ w.sum = ((xz1.length : ℕ) : ℚ) :=
  ⟨rfl, claim6 1 xz1 (fun p => p) jacTwo none none
    (fun _ => fun _ => 0) (fun _ => fun _ => 0) (fun q => q) false false
    [Matrix.of fun _ _ => 2] rfl (by simp)
    (by simp [xz1])
    (by
      intro J hJ
      simp only [if_neg Bool.false_ne_true, List.mem_singleton] at hJ
      subst hJ
      norm_num [Matrix.det_fin_one])⟩

/-- With the surface flag off, `compute_deform_weight` never invokes the
`y_net` callable, so the argument is irrelevant to the result. -/
theorem cdw_ynet_irrelevant (dim : ℕ) {d : ℕ} (x : List (Vec d))
    (deform : Vec d → Vec d) (jacO : List (Vec d) → List (Mat d) × ℤ)
    (yn yn' xn : Option (Vec d → ℚ)) (gY gX : Vec d → Vec d) (sq : ℚ → ℚ)
    (detach normalize : Bool) :
    compute_deform_weight dim x deform jacO yn xn gY gX sq false detach normalize =
    compute_deform_weight dim x deform jacO yn' xn gY gX sq false detach normalize := rfl

/-- C2 (counterexample). The volumetric inverted path
(`use_surf_points = False, invert_sampling = True`) succeeds with BOTH
`gtr = None` and `net = None`, as long as a deformation is supplied: the
source asserts only `deform is not None` on this path, and the
non-surface weight computation never calls either field. The run below
returns the pulled-back point with weight 1 — no failure is raised. -/
theorem claim2_counterexample :
    sample_points_for_loss 1 1 false none none (some idDeform1) true true true false
      Oc1 0 = Except.ok ([p01], some [1]) := by
  norm_num [sample_points_for_loss, Oc1, idDeform1, compute_deform_weight,
    weightsFromJ, rawWeights, normalizeW, Except.map, Matrix.det_fin_one]

/-- C2 (amended). On the volumetric inverted path, omitting the
deformation map is a precondition failure surfaced to the caller, but the
ground-truth field is NOT checked: it is never evaluated on this path, so
the result is identical whether `gtr` is absent or any field at all. -/
theorem claim2 {d : ℕ} (npoints : ℕ) (gtr net : Option (Vec d → ℚ))
    (df : Deform d) (rwt dwt urt : Bool) (O : SampleOracles d) (fuel : ℕ)
    (f : Vec d → ℚ) :
    sample_points_for_loss d npoints false gtr net none true rwt dwt urt O fuel =
      Except.error "AssertionError: deform is not None" ∧
    sample_points_for_loss d npoints false none net (some df) true rwt dwt urt O fuel =
      sample_points_for_loss d npoints false (some f) net (some df) true rwt dwt urt
        O fuel := by
  constructor
  · rfl
  · show Except.map _ (compute_deform_weight d (df.invert O.randUnif) df.forward
        O.jacDeform none net O.gradGtr O.gradNet O.sq false dwt true) =
      Except.map _ (compute_deform_weight d (df.invert O.randUnif) df.forward
        O.jacDeform (some f) net O.gradGtr O.gradNet O.sq false dwt true)
    rw [cdw_ynet_irrelevant d (df.invert O.randUnif) df.forward O.jacDeform
      none (some f) net O.gradGtr O.gradNet O.sq dwt true]

/-- Accumulation invariant of the filtered outer loop: every point in a
`some` accumulator was accepted by the `|field| < eps` mask, and this is
preserved to the final accumulator. -/
theorem defautLoop_filtered_mem {d : ℕ} (F : FieldOps d)
    (initPts : ℕ → List (Vec d)) (noiseAt : ℕ → ℕ → List (Vec d))
    (npoints steps : ℕ) (eps noise_sigma sigma_decay bound atol : ℚ) :
    ∀ (fuel a cnt : ℕ) (out : Option (List (Vec d))) (l : List (Vec d)),
      (∀ l0, out = some l0 → ∀ p ∈ l0, |F.net p| < eps) →
      (defautLoop F initPts noiseAt npoints steps eps noise_sigma sigma_decay
        bound atol true fuel a cnt out).1 = some l →
      ∀ p ∈ l, |F.net p| < eps := by
  intro fuel
  induction fuel with
  | zero =>
    intro a cnt out l hinv hres p hp
    simp only [defautLoop] at hres
    exact hinv l hres p hp
  | succ fuel ih =>
    intro a cnt out l hinv hres p hp
    simp only [defautLoop] at hres
    split at hres
    · exact hinv l hres p hp
    · simp only [if_true] at hres
      refine ih (a + 1) _ _ l ?_ hres p hp
      intro l0 h0 q hq
      obtain rfl := (Option.some.injEq _ _).mp h0
      rcases List.mem_append.mp hq with hqf | hqo
      · exact of_decide_eq_true (List.mem_filter.mp hqf).2
      · cases out with
        | none => simp at hqo
        | some l1 => exact hinv l1 rfl q (by simpa using hqo)

/-- C4. In filtered mode, every point `get_surf_pcl_defaut` returns
satisfies `|field(point)| < eps`: it was accepted by the acceptance mask
of some attempt, and the field is a pure function. (This holds even when
the attempt budget was exhausted, so in particular under the claim's
budget hypothesis.) -/
theorem claim4 {d : ℕ} (F : FieldOps d) (initPts : ℕ → List (Vec d))
    (noiseAt : ℕ → ℕ → List (Vec d)) (npoints steps max_repeat : ℕ)
    (eps noise_sigma sigma_decay bound atol : ℚ)
    (l : List (Vec d)) (p : Vec d)
    (hres : get_surf_pcl_defaut F initPts noiseAt npoints steps max_repeat eps
      noise_sigma sigma_decay bound atol true = some l)
    (hp : p ∈ l) : |F.net p| < eps := by
  simp only [get_surf_pcl_defaut, get_surf_pcl_defautRun] at hres
  obtain ⟨l0, h0, rfl⟩ := Option.map_eq_some'.mp hres
  exact defautLoop_filtered_mem F initPts noiseAt npoints steps eps noise_sigma
    sigma_decay bound atol max_repeat 0 0 none l0 (by intro l0' h; simp at h) h0 p
    (List.take_subset npoints l0 hp)

/-- C4 (witness): under the zero field at the origin, the single returned
point was accepted and indeed satisfies the mask. -/
theorem claim4_witness :
    get_surf_pcl_defaut F0 (fun _ => [p01]) (fun _ _ => [p01]) 1 0 1 (1/10000)
      (1/100) 1 (1 - 1/10000) (1/100000000) true = some [p01] ∧
    |F0.net p01| < 1/10000 := by
  have hres : get_surf_pcl_defaut F0 (fun _ => [p01]) (fun _ _ => [p01]) 1 0 1
      (1/10000) (1/100) 1 (1 - 1/10000) (1/100000000) true = some [p01] := by
    norm_num [get_surf_pcl_defaut, get_surf_pcl_defautRun, defautLoop, projLoop,
      F0, p01, List.filter]
  exact ⟨hres, claim4 F0 (fun _ => [p01]) (fun _ _ => [p01]) 1 0 1 (1/10000)
    (1/100) 1 (1 - 1/10000) (1/100000000) [p01] p01 hres (by simp)⟩

/-- The outer loop's accumulator ends up assigned whenever it starts
assigned, or at least one iteration is guaranteed to run. -/
theorem defautLoop_isSome {d : ℕ} (F : FieldOps d) (initPts : ℕ → List (Vec d))
    (noiseAt : ℕ → ℕ → List (Vec d)) (npoints steps : ℕ)
    (eps noise_sigma sigma_decay bound atol : ℚ) (filtered : Bool) :
    ∀ (fuel a cnt : ℕ) (out : Option (List (Vec d))),
      (out.isSome ∨ (cnt < npoints ∧ 1 ≤ fuel)) →
      ((defautLoop F initPts noiseAt npoints steps eps noise_sigma sigma_decay
        bound atol filtered fuel a cnt out).1).isSome := by
  intro fuel
  induction fuel with
  | zero =>
    intro a cnt out h
    rcases h with h | ⟨_, h⟩
    · simpa [defautLoop] using h
    · omega
  | succ fuel ih =>
    intro a cnt out h
    simp only [defautLoop]
    split
    · rcases h with h | ⟨hlt, _⟩
      · simpa using h
      · omega
    · split
      · exact ih _ _ _ (Or.inl (by simp))
      · exact ih _ _ _ (Or.inl (by simp))

/-- C7. In filtered mode with a positive request and a positive attempt
budget, `get_surf_pcl_defaut` always returns a value — the (possibly
empty, possibly short) accepted collection truncated to `npoints` — and
raises no failure, even when the budget is exhausted with fewer than
`npoints` accepted points. -/
theorem claim7 {d : ℕ} (F : FieldOps d) (initPts : ℕ → List (Vec d))
    (noiseAt : ℕ → ℕ → List (Vec d)) (npoints steps max_repeat : ℕ)
    (eps noise_sigma sigma_decay bound atol : ℚ)
    (h1 : 1 ≤ npoints) (h2 : 1 ≤ max_repeat) :
    ∃ l, get_surf_pcl_defaut F initPts noiseAt npoints steps max_repeat eps
        noise_sigma sigma_decay bound atol true = some l ∧
      l.length ≤ npoints := by
  have hrun := defautLoop_isSome F initPts noiseAt npoints steps eps noise_sigma
    sigma_decay bound atol true max_repeat 0 0 none (Or.inr ⟨h1, h2⟩)
  obtain ⟨l0, hl0⟩ := Option.isSome_iff_exists.mp hrun
  refine ⟨l0.take npoints, ?_, ?_⟩
  · simp only [get_surf_pcl_defaut, get_surf_pcl_defautRun]
    rw [hl0]
    rfl
  · rw [List.length_take]
    exact min_le_left _ _

/-- C7 (witness): the constantly-one field accepts nothing; after the
single attempt the function still returns (the empty list), silently. -/
theorem claim7_witness :
    ∃ l, get_surf_pcl_defaut F1 (fun _ => [p01]) (fun _ _ => [p01]) 1 0 1
        (1/10000) (1/100) 1 (1 - 1/10000) (1/100000000) true = some l ∧
      l.length ≤ 1 :=
  claim7 F1 (fun _ => [p01]) (fun _ _ => [p01]) 1 0 1 (1/10000) (1/100) 1
    (1 - 1/10000) (1/100000000) (by norm_num) (by norm_num)

/-- The inner projection loop executes at most its fuel. -/
theorem projLoop_steps_le {d : ℕ} (F : FieldOps d) (noise : ℕ → List (Vec d))
    (noise_sigma sigma_decay eps bound atol : ℚ) :
    ∀ (fuel i : ℕ) (x : List (Vec d)),
      (projLoop F noise noise_sigma sigma_decay eps bound atol fuel i x).2 ≤
        i + fuel := by
  intro fuel
  induction fuel with
  | zero =>
    intro i x
    simp [projLoop]
  | succ fuel ih =>
    intro i x
    simp only [projLoop]
    split
    · simp
    · exact le_trans (ih (i + 1) _) (by omega)

/-- The outer loop executes at most its fuel many attempts. -/
theorem defautLoop_attempts_le {d : ℕ} (F : FieldOps d)
    (initPts : ℕ → List (Vec d)) (noiseAt : ℕ → ℕ → List (Vec d))
    (npoints steps : ℕ) (eps noise_sigma sigma_decay bound atol : ℚ)
    (filtered : Bool) :
    ∀ (fuel a cnt : ℕ) (out : Option (List (Vec d))),
      (defautLoop F initPts noiseAt npoints steps eps noise_sigma sigma_decay
        bound atol filtered fuel a cnt out).2 ≤ a + fuel := by
  intro fuel
  induction fuel with
  | zero =>
    intro a cnt out
    simp [defautLoop]
  | succ fuel ih =>
    intro a cnt out
    simp only [defautLoop]
    split
    · simp
    · split
      · exact le_trans (ih (a + 1) _ _) (by omega)
      · exact le_trans (ih (a + 1) _ _) (by omega)

/-- A field bounded away from zero by the rejection threshold never yields
an accepted candidate, so the rejection accumulation loop runs forever:
no amount of fuel makes it return. -/
theorem rejAccumLoop_none {d : ℕ} (F : FieldOps d) (draw : ℕ → List (Vec d))
    (thr : ℚ) (npoints : ℕ) (hnet : ∀ p, thr ≤ |F.net p|) :
    ∀ (fuel it cnt : ℕ) (acc : List (Vec d)), cnt < npoints →
      rejAccumLoop F draw thr npoints fuel it cnt acc = none := by
  intro fuel
  induction fuel with
  | zero =>
    intro it cnt acc h
    simp [rejAccumLoop]
  | succ fuel ih =>
    intro it cnt acc h
    have hfil : ((draw it).filter fun p => decide (|F.net p| < thr)) = [] := by
      apply List.filter_eq_nil_iff.mpr
      intro p hp
      simp only [decide_eq_true_eq]
      exact not_lt.mpr (hnet p)
    simp only [rejAccumLoop, if_neg (not_le.mpr h), hfil, List.length_nil]
    rw [if_pos (by norm_num : (0:ℕ) < 1)]
    exact ih (it + 1) cnt acc h

/-- C8. Termination structure of the two strategies: the instrumented
`get_surf_pcl_defaut` run performs at most `max_repeat` attempts, its
inner projection loop performs at most `steps` iterations, and — by
contrast — the rejection accumulation loop has no ceiling: on a field
bounded away from its zero level-set by the threshold, it fails to return
for EVERY fuel bound. -/
theorem claim8 {d : ℕ} (F RF : FieldOps d) (initPts : ℕ → List (Vec d))
    (noiseAt : ℕ → ℕ → List (Vec d)) (noise draw : ℕ → List (Vec d))
    (npoints steps max_repeat rejNpoints fuel it cnt : ℕ)
    (acc x0 : List (Vec d))
    (eps noise_sigma sigma_decay bound atol thr : ℚ) (filtered : Bool) :
    (get_surf_pcl_defautRun F initPts noiseAt npoints steps max_repeat eps
      noise_sigma sigma_decay bound atol filtered).2 ≤ max_repeat ∧
    (projLoop F noise noise_sigma sigma_decay eps bound atol steps 0 x0).2 ≤
      steps ∧
    ((∀ p, thr ≤ |RF.net p|) → cnt < rejNpoints →
      rejAccumLoop RF draw thr rejNpoints fuel it cnt acc = none) := by
  refine ⟨?_, ?_, fun hnet hcnt =>
    rejAccumLoop_none RF draw thr rejNpoints hnet fuel it cnt acc hcnt⟩
  · simpa using defautLoop_attempts_le F initPts noiseAt npoints steps eps
      noise_sigma sigma_decay bound atol filtered max_repeat 0 0 none
  · simpa using projLoop_steps_le F noise noise_sigma sigma_decay eps bound atol
      steps 0 x0

/-- C8 (witness): concrete budgets; the constantly-one field starves the
rejection loop at threshold `0.05` for fuel 3 (and, by the theorem, any
fuel). -/
theorem claim8_witness :
    (get_surf_pcl_defautRun F1 (fun _ => [p01]) (fun _ _ => [p01]) 1 0 1
      (1/10000) (1/100) 1 (1 - 1/10000) (1/100000000) true).2 ≤ 1 ∧
    (projLoop F1 (fun _ => [p01]) (1/100) 1 (1/10000) (1 - 1/10000)
      (1/100000000) 0 0 [p01]).2 ≤ 0 ∧
    rejAccumLoop F1 (fun _ => [p01]) (1/20) 1 3 0 0 [] = none := by
  have h := claim8 F1 F1 (fun _ => [p01]) (fun _ _ => [p01]) (fun _ => [p01])
    (fun _ => [p01]) 1 0 1 1 3 0 0 [] [p01] (1/10000) (1/100) 1 (1 - 1/10000)
    (1/100000000) (1/20) true
  exact ⟨h.1, h.2.1, h.2.2 (fun p => by norm_num [F1]) (by norm_num)⟩

end IGP
